import Mathlib

/-!
Shallow embedding of the `wavereactor` repository (files `src/time.rs` and
`src/player.rs`) and proofs about it.

Modelling conventions:
* `Time = TimeCompatible = f32` is modelled by the inductive `Time` below:
  a finite rational, `+∞`, `-∞`, or NaN.  Rational arithmetic is exact where
  `f32` would round; every concrete value appearing in the development is
  exactly representable in `f32`, so the arithmetic performed in the theorems
  coincides with the source's.  IEEE special-value rules (NaN propagation,
  `x / 0`, `∞ * 0`, incomparability of NaN) are modelled explicitly.
* `partial_cmp` on `f32` is modelled by `Time.pcmp`, returning `none` exactly
  when one operand is NaN.
* Rust's `Iterator::next(&mut self)` is modelled as a function from the state
  to a result carrying the successor state; out-of-bounds slice indexing
  (a panic in Rust) is a distinct `panicked` result.
* `u32` / `usize` counters are modelled as `Nat`; the one increment that could
  wrap (`second_sample += 1`) is taken modulo `2^32` (release-mode semantics).
-/

/-- Model of the `f32` type used as `Time`/`TimeCompatible` in `time.rs`:
a finite rational, one of the two infinities, or NaN. -/
inductive Time where
  | nan : Time
  | negInf : Time
  | fin (q : ℚ) : Time
  | posInf : Time
deriving DecidableEq, Repr

/-- Model of `f32::is_nan`. -/
def Time.isNan : Time → Bool
  | .nan => true
  | _ => false

/-- Model of `f32::partial_cmp` (`PartialOrd`): `none` exactly when one side
is NaN, otherwise the comparison in the order `-∞ < finite < +∞`. -/
def Time.pcmp : Time → Time → Option Ordering
  | .nan, _ => none
  | _, .nan => none
  | .negInf, .negInf => some .eq
  | .negInf, .fin _ => some .lt
  | .negInf, .posInf => some .lt
  | .fin _, .negInf => some .gt
  | .fin a, .fin b => some (if a < b then .lt else if b < a then .gt else .eq)
  | .fin _, .posInf => some .lt
  | .posInf, .negInf => some .gt
  | .posInf, .fin _ => some .gt
  | .posInf, .posInf => some .eq

/-- Model of the Rust `<=` operator on `f32` (false when either side is NaN). -/
def Time.fle (x y : Time) : Bool :=
  match Time.pcmp x y with
  | some .lt => true
  | some .eq => true
  | _ => false

/-- Model of the Rust `>=` operator on `f32` (false when either side is NaN). -/
def Time.fge (x y : Time) : Bool :=
  match Time.pcmp x y with
  | some .gt => true
  | some .eq => true
  | _ => false

/-- Strict order on `Time` values as a proposition: both sides comparable and
the left strictly below the right. -/
def Time.tlt (x y : Time) : Prop :=
  Time.pcmp x y = some .lt

instance (x y : Time) : Decidable (Time.tlt x y) := by
  unfold Time.tlt; infer_instance

/-- Non-strict order on `Time` values as a proposition: both sides comparable
and the left at most the right. -/
def Time.tle (x y : Time) : Prop :=
  Time.pcmp x y = some .lt ∨ Time.pcmp x y = some .eq

instance (x y : Time) : Decidable (Time.tle x y) := by
  unfold Time.tle; infer_instance

/-- Model of IEEE `f32` addition on the embedded values (exact on finites). -/
def Time.add : Time → Time → Time
  | .nan, _ => .nan
  | _, .nan => .nan
  | .negInf, .posInf => .nan
  | .posInf, .negInf => .nan
  | .negInf, .negInf => .negInf
  | .negInf, .fin _ => .negInf
  | .fin _, .negInf => .negInf
  | .posInf, .posInf => .posInf
  | .posInf, .fin _ => .posInf
  | .fin _, .posInf => .posInf
  | .fin a, .fin b => .fin (a + b)

/-- Model of IEEE `f32` multiplication on the embedded values (exact on
finites; `∞ * 0 = NaN`). -/
def Time.mul : Time → Time → Time
  | .nan, _ => .nan
  | _, .nan => .nan
  | .posInf, .posInf => .posInf
  | .posInf, .negInf => .negInf
  | .negInf, .posInf => .negInf
  | .negInf, .negInf => .posInf
  | .posInf, .fin b => if 0 < b then .posInf else if b < 0 then .negInf else .nan
  | .negInf, .fin b => if 0 < b then .negInf else if b < 0 then .posInf else .nan
  | .fin a, .posInf => if 0 < a then .posInf else if a < 0 then .negInf else .nan
  | .fin a, .negInf => if 0 < a then .negInf else if a < 0 then .posInf else .nan
  | .fin a, .fin b => .fin (a * b)

/-- Model of IEEE `f32` division on the embedded values (exact on finites;
`x / 0` is `±∞` for `x ≠ 0` and NaN for `0 / 0`; `finite / ∞ = 0`). -/
def Time.div : Time → Time → Time
  | .nan, _ => .nan
  | _, .nan => .nan
  | .posInf, .posInf => .nan
  | .posInf, .negInf => .nan
  | .negInf, .posInf => .nan
  | .negInf, .negInf => .nan
  | .posInf, .fin b => if b < 0 then .negInf else .posInf
  | .negInf, .fin b => if b < 0 then .posInf else .negInf
  | .fin _, .posInf => .fin 0
  | .fin _, .negInf => .fin 0
  | .fin a, .fin b =>
    if b = 0 then (if a = 0 then .nan else if 0 < a then .posInf else .negInf)
    else .fin (a / b)

/-- Model of the `u32 as TimeCompatible` cast (exact for the values used in
this development). -/
def Time.ofNat (n : ℕ) : Time := .fin n

/-- Model of the trait `TimeFn` from `time.rs`: the capability to evaluate at
a time.  The trait method `at` is named `atTime` here (`at` is reserved). -/
class TimeFn (F : Type) (Output : outParam Type) where
  atTime : F → Time → Output

export TimeFn (atTime)

/-- Model of the struct `WithSpeed` from `time.rs`. -/
structure WithSpeed (T : Type) where
  inner : T
  speed : Time

/-- Evaluation of `WithSpeed` (`time.rs` lines 185-194):
`self.inner.at(seconds * self.speed)`. -/
instance {T O : Type} [TimeFn T O] : TimeFn (WithSpeed T) O where
  atTime w seconds := atTime w.inner (Time.mul seconds w.speed)

/-- Model of the struct `Compose` from `time.rs`. -/
structure Compose (U T : Type) where
  outer : U
  inner : T

/-- Evaluation of `Compose` (`time.rs` lines 202-212):
`self.outer.at(self.inner.at(seconds))`. -/
instance {U T O : Type} [TimeFn U O] [TimeFn T Time] : TimeFn (Compose U T) O where
  atTime c seconds := atTime c.outer (atTime c.inner seconds)

/-- Model of the struct `StepAt` from `time.rs`. -/
structure StepAt (T U : Type) where
  before : T
  at_seconds : Time
  after : U

/-- Evaluation of `StepAt` (`time.rs` lines 221-235): `after.at(seconds)` when
`seconds >= at_seconds`, else `before.at(seconds)`. -/
instance {T U O : Type} [TimeFn T O] [TimeFn U O] : TimeFn (StepAt T U) O where
  atTime s seconds :=
    if Time.fge seconds s.at_seconds then atTime s.after seconds
    else atTime s.before seconds

/-- Model of the struct `Seconds` (the identity time function) from `time.rs`. -/
structure Seconds where

/-- Evaluation of `Seconds` (`time.rs` lines 240-246). -/
instance : TimeFn Seconds Time where
  atTime _ seconds := seconds

/-- Model of the struct `Const` from `time.rs`. -/
structure Const (A : Type) where
  value : A

/-- Evaluation of `Const` (`time.rs` lines 262-271). -/
instance {A : Type} : TimeFn (Const A) A where
  atTime c _ := c.value

/-- Model of the loop of Rust `slice::binary_search_by` on the subrange
`[left, right)`: at each iteration the probe index is
`left + (right - left) / 2`; comparator `Less` moves `left` past the probe,
`Greater` moves `right` to the probe, `Equal` returns `Except.ok` with the
probe index; an empty range returns `Except.error left` (the insertion
point).  `Except.ok`/`Except.error` model Rust's `Ok`/`Err`.  The structural
`fuel` argument only bounds the number of iterations: the width
`right - left` shrinks by at least one per iteration, so as long as
`right - left ≤ fuel` the `0` case is reached only with `left ≥ right`, where
it returns the same insertion point the loop would. -/
def binarySearchGo {α : Type} (f : α → Ordering) (xs : List α) :
    ℕ → ℕ → ℕ → Except ℕ ℕ
  | 0, left, _right => .error left
  | fuel + 1, left, right =>
    if left < right then
      let mid := left + (right - left) / 2
      match xs[mid]? with
      | none => .error left
      | some x =>
        match f x with
        | .lt => binarySearchGo f xs fuel (mid + 1) right
        | .eq => .ok mid
        | .gt => binarySearchGo f xs fuel left mid
    else
      .error left

/-- Model of Rust `slice::binary_search_by` over the whole list. -/
def binarySearchBy {α : Type} (f : α → Ordering) (xs : List α) : Except ℕ ℕ :=
  binarySearchGo f xs xs.length 0 xs.length

/-- Model of the enum `BadSwitchStep` from `time.rs` (lines 357-363). -/
inductive BadSwitchStep where
  | nan : BadSwitchStep
  | duplicated (seconds : Time) : BadSwitchStep
deriving DecidableEq, Repr

/-- Model of the struct `Switch` from `time.rs` (lines 365-369): the `Vec` of
`(Time, T)` pairs becomes a Lean list. -/
structure Switch (T : Type) where
  initial_step : T
  switching_steps : List (Time × T)

/-- Model of `Switch::new` (`time.rs` lines 375-377). -/
def Switch.new {T O : Type} [TimeFn T O] (initial_step : T) : Switch T :=
  { initial_step := initial_step, switching_steps := [] }

/-- Model of `Switch::new_with_capacity` (`time.rs` lines 379-381); the
capacity is only an allocation hint, so the resulting value is the same empty
step list. -/
def Switch.new_with_capacity {T O : Type} [TimeFn T O] (initial_step : T)
    (capacity : ℕ) : Switch T :=
  { initial_step := initial_step, switching_steps := [] }

/-- Model of the comparator closure inside `Switch::search` (`time.rs` lines
405-410): `step_at.partial_cmp(&seconds).unwrap_or(Ordering::Greater)`. -/
def switchCmp {T : Type} (seconds : Time) (p : Time × T) : Ordering :=
  (Time.pcmp p.1 seconds).getD .gt

/-- Model of `Switch::search` (`time.rs` lines 405-410). -/
def Switch.search {T O : Type} [TimeFn T O] (sw : Switch T) (seconds : Time) :
    Except ℕ ℕ :=
  binarySearchBy (switchCmp seconds) sw.switching_steps

/-- Model of `Switch::try_step_at` (`time.rs` lines 383-399). -/
def Switch.try_step_at {T O : Type} [TimeFn T O] (sw : Switch T)
    (at_seconds : Time) (after : T) : Except BadSwitchStep (Switch T) :=
  if at_seconds.isNan then .error .nan
  else
    match sw.search at_seconds with
    | .ok _ => .error (.duplicated at_seconds)
    | .error index =>
      .ok { sw with
            switching_steps := sw.switching_steps.insertIdx index (at_seconds, after) }

/-- Successive values taken by the `switching_steps` field of `self` during a
call of `Switch::try_step_at`, in order (the only mutation in the body is the
`Vec::insert` on the success path, `time.rs` line 394).  Used to state that
the error returns happen before any mutation. -/
def Switch.try_step_at_states {T O : Type} [TimeFn T O] (sw : Switch T)
    (at_seconds : Time) (after : T) : List (List (Time × T)) :=
  if at_seconds.isNan then [sw.switching_steps]
  else
    match sw.search at_seconds with
    | .ok _ => [sw.switching_steps]
    | .error index =>
      [sw.switching_steps, sw.switching_steps.insertIdx index (at_seconds, after)]

/-- Model of `Switch::step_at` (`time.rs` lines 401-403): the panicking
variant; `none` models the panic of `expect`. -/
def Switch.step_at {T O : Type} [TimeFn T O] (sw : Switch T) (at_seconds : Time)
    (after : T) : Option (Switch T) :=
  (sw.try_step_at at_seconds after).toOption

/-- Evaluation of `Switch` (`time.rs` lines 412-431).  The two `none`
fallbacks are unreachable: `Switch::search` always returns an index within
bounds (a consequence of the search contract proved below), so the source's
slice indexing cannot panic there; the fallback value is arbitrary. -/
def Switch.evalAt {T O : Type} [TimeFn T O] (sw : Switch T) (seconds : Time) : O :=
  match sw.search seconds with
  | .error 0 => atTime sw.initial_step seconds
  | .error (i + 1) =>
    match sw.switching_steps[i]? with
    | some p => atTime p.2 seconds
    | none => atTime sw.initial_step seconds
  | .ok i =>
    match sw.switching_steps[i]? with
    | some p => atTime p.2 seconds
    | none => atTime sw.initial_step seconds

instance {T O : Type} [TimeFn T O] : TimeFn (Switch T) O where
  atTime := Switch.evalAt

/-- Model of the struct `SampleSource` from `player.rs` (lines 17-25): the
`Arc<[T]>` of channels becomes a Lean list; the field `end` is renamed
`endTime` (`end` is reserved). -/
structure SampleSource (T : Type) where
  channels : List T
  curr_channel : ℕ
  sample_rate : ℕ
  second_sample : ℕ
  start : Time
  endTime : Time

/-- Model of the `Clone` impl for `SampleSource` (`player.rs` lines 27-38). -/
def SampleSource.clone {T : Type} (s : SampleSource T) : SampleSource T :=
  { channels := s.channels
    curr_channel := s.curr_channel
    sample_rate := s.sample_rate
    second_sample := 0
    start := s.start
    endTime := s.endTime }

/-- Result of one `Iterator::next` call on a `SampleSource`: exhaustion
(Rust's `None`), a panic (out-of-bounds indexing in the source), or an item
together with the mutated iterator state. -/
inductive NextResult (T O : Type) where
  | exhausted : NextResult T O
  | panicked : NextResult T O
  | item (data : O) (rest : SampleSource T) : NextResult T O

/-- Model of the `Iterator` impl for `SampleSource` (`player.rs` lines 46-66),
translated statement by statement; `self.sample_rate = 0` on line 57 is kept
exactly as written in the source. -/
def SampleSource.next {T O : Type} [TimeFn T O] (s : SampleSource T) :
    NextResult T O :=
  let offset := Time.div (Time.ofNat s.second_sample) (Time.ofNat s.sample_rate)
  let curr_time := Time.add s.start offset
  if Time.fle curr_time s.endTime then
    match s.channels[s.curr_channel]? with
    | none => .panicked
    | some ch =>
      let data := atTime ch curr_time
      let curr_channel := s.curr_channel + 1
      if curr_channel ≥ s.channels.length then
        let second_sample := (s.second_sample + 1) % 2 ^ 32
        if second_sample ≥ s.sample_rate then
          .item data { s with
                       curr_channel := 0
                       second_sample := second_sample
                       sample_rate := 0
                       start := Time.add s.start (Time.fin 1) }
        else
          .item data { s with curr_channel := 0, second_sample := second_sample }
      else
        .item data { s with curr_channel := curr_channel }
  else
    .exhausted

/-- Collect up to `fuel` items produced by repeatedly calling
`SampleSource.next`, stopping at exhaustion or a panic. -/
def SampleSource.takeOut {T O : Type} [TimeFn T O] :
    ℕ → SampleSource T → List O
  | 0, _ => []
  | fuel + 1, s =>
    match s.next with
    | .item data rest => data :: SampleSource.takeOut fuel rest
    | _ => []

/-- Model of the struct `NoChannels` from `player.rs` (lines 13-15). -/
structure NoChannels where

/-- Model of the struct `Player` from `player.rs` (lines 69-74); the backend
is kept abstract as a type parameter, exactly as the generic `B`. -/
structure Player (T B : Type) where
  channels : List T
  backend : B
  sample_rate : ℕ

/-- Model of `Player::new` (`player.rs` lines 94-104). -/
def Player.new {T O B : Type} [TimeFn T O] (channels : List T) (backend : B) :
    Except NoChannels (Player T B) :=
  if channels.isEmpty then .error {}
  else .ok { channels := channels, backend := backend, sample_rate := 48000 }

/-- The renderer snapshot that `Player::play` constructs (`player.rs` lines
118-125): cursor at channel 0, intra-second index 0, the player's channels and
current sample rate, and the requested window. -/
def Player.playSource {T O B : Type} [TimeFn T O] (p : Player T B)
    (start endTime : Time) : SampleSource T :=
  { channels := p.channels
    curr_channel := 0
    sample_rate := p.sample_rate
    second_sample := 0
    start := start
    endTime := endTime }

/-- Rank of an `Ordering`, used to state monotonicity of a comparator along a
sorted list (`Less < Equal < Greater`). -/
def ordRank : Ordering → ℕ
  | .lt => 0
  | .eq => 1
  | .gt => 2

/-- Invariant of a `Switch` (spec §3 "Switch state"): thresholds strictly
sorted in the `Time` order and none of them NaN. -/
def SwitchInv {T : Type} (sw : Switch T) : Prop :=
  sw.switching_steps.Pairwise (fun p q => p.1.tlt q.1) ∧
  ∀ p ∈ sw.switching_steps, p.1.isNan = false

/-- The switches reachable by construction (`Switch::new`,
`Switch::new_with_capacity`) followed by any sequence of successful
insertions (`Switch::try_step_at` directly, or through the panicking wrapper
`Switch::step_at`, which succeeds exactly when `try_step_at` does). -/
inductive Switch.Reachable {T O : Type} [TimeFn T O] : Switch T → Prop where
  | new (initial_step : T) : Switch.Reachable (Switch.new initial_step)
  | new_with_capacity (initial_step : T) (capacity : ℕ) :
      Switch.Reachable (Switch.new_with_capacity initial_step capacity)
  | step {sw sw' : Switch T} {v : Time} {seg : T} : Switch.Reachable sw →
      sw.try_step_at v seg = .ok sw' → Switch.Reachable sw'

/-- Concrete example switch (the one from spec §8): constant 0 initially,
stepping to constant 10 at 1 second and to constant 20 at 2 seconds. -/
def exSwitch : Switch (Const ℕ) :=
  { initial_step := ⟨0⟩
    switching_steps := [(Time.fin 1, ⟨10⟩), (Time.fin 2, ⟨20⟩)] }

/-- Concrete renderer: one identity channel, sample rate 1, window [0, 1]
(so the spec's `(end-start)*R` is the integer k = 1). -/
def exSource : SampleSource Seconds :=
  { channels := [⟨⟩], curr_channel := 0, sample_rate := 1, second_sample := 0,
    start := Time.fin 0, endTime := Time.fin 1 }

/-- Concrete renderer about to perform the end-of-second carry: one identity
channel, sample rate 1, window [0, 10]; the next `next` call emits the last
channel of the step and reaches `second_sample = sample_rate`. -/
def exCarrySource : SampleSource Seconds :=
  { channels := [⟨⟩], curr_channel := 0, sample_rate := 1, second_sample := 0,
    start := Time.fin 0, endTime := Time.fin 10 }

/-!
Order lemmas about `Time.pcmp`.
-/

/-- Comparability: `pcmp` returns `some` exactly when neither side is NaN. -/
theorem Time.pcmp_isSome {x y : Time} (hx : x.isNan = false)
    (hy : y.isNan = false) : ∃ o, Time.pcmp x y = some o := by
  cases x <;> cases y <;> simp_all [Time.isNan, Time.pcmp]

/-- NaN on the right makes `pcmp` return `none`. -/
theorem Time.pcmp_nan_right {x : Time} : Time.pcmp x Time.nan = none := by
  cases x <;> rfl

/-- Reflexivity: comparing a non-NaN value with itself gives `Equal`. -/
theorem Time.pcmp_self {x : Time} (hx : x.isNan = false) :
    Time.pcmp x x = some .eq := by
  cases x <;> simp_all [Time.isNan, Time.pcmp]

/-- Characterization of a `Less` result on finite values. -/
theorem Time.pcmp_fin_lt_iff {a b : ℚ} :
    Time.pcmp (.fin a) (.fin b) = some .lt ↔ a < b := by
  rcases lt_trichotomy a b with hab | hab | hab
  · simp [Time.pcmp, if_pos hab, hab]
  · subst hab; simp [Time.pcmp, lt_irrefl]
  · simp [Time.pcmp, if_neg (asymm hab), if_pos hab, asymm hab]

/-- Characterization of a `Greater` result on finite values. -/
theorem Time.pcmp_fin_gt_iff {a b : ℚ} :
    Time.pcmp (.fin a) (.fin b) = some .gt ↔ b < a := by
  rcases lt_trichotomy a b with hab | hab | hab
  · simp [Time.pcmp, if_pos hab, asymm hab]
  · subst hab; simp [Time.pcmp, lt_irrefl]
  · simp [Time.pcmp, if_neg (asymm hab), if_pos hab, hab]

/-- Characterization of an `Equal` result on finite values. -/
theorem Time.pcmp_fin_eq_iff {a b : ℚ} :
    Time.pcmp (.fin a) (.fin b) = some .eq ↔ a = b := by
  rcases lt_trichotomy a b with hab | hab | hab
  · simp [Time.pcmp, if_pos hab, hab.ne]
  · subst hab; simp [Time.pcmp, lt_irrefl]
  · simp [Time.pcmp, if_neg (asymm hab), if_pos hab, hab.ne']

/-- An `Equal` comparison forces the two values to be the same non-NaN value. -/
theorem Time.pcmp_eq_iff {x y : Time} :
    Time.pcmp x y = some .eq ↔ (x.isNan = false ∧ x = y) := by
  cases x <;> cases y <;>
    simp [Time.pcmp, Time.isNan, Time.pcmp_fin_eq_iff] <;>
    exact ⟨fun h => le_antisymm h.2 h.1, fun h => by simp [h]⟩

/-- Antisymmetry of the strict comparison: `x < y` iff `y > x`. -/
theorem Time.pcmp_lt_iff_gt {x y : Time} :
    Time.pcmp x y = some .lt ↔ Time.pcmp y x = some .gt := by
  cases x <;> cases y <;>
    simp [Time.pcmp, Time.pcmp_fin_lt_iff, Time.pcmp_fin_gt_iff] <;>
    exact fun h => le_of_lt h

/-- Transitivity of the strict order `Time.tlt`. -/
theorem Time.tlt_trans {x y z : Time} (h1 : x.tlt y) (h2 : y.tlt z) :
    x.tlt z := by
  unfold Time.tlt at *
  cases x <;> cases y <;> cases z <;>
    simp_all [Time.pcmp_fin_lt_iff, Time.pcmp] <;>
    linarith

/-- Irreflexivity of the strict order `Time.tlt`. -/
theorem Time.tlt_irrefl {x : Time} : ¬ x.tlt x := by
  cases x <;> simp [Time.tlt, Time.pcmp]

/-- A strictly smaller value is not NaN. -/
theorem Time.tlt_not_nan_left {x y : Time} (h : x.tlt y) : x.isNan = false := by
  cases x <;> simp_all [Time.tlt, Time.pcmp, Time.isNan]

theorem ordRank_eq_zero {o : Ordering} (h : ordRank o ≤ 0) : o = .lt := by
  cases o <;> simp_all [ordRank]

theorem ordRank_eq_two {o : Ordering} (h : 2 ≤ ordRank o) : o = .gt := by
  cases o <;> simp_all [ordRank]

/-- Contract of the binary search loop: starting from a subrange whose outside
is already classified (`Less` strictly below `left`, `Greater` from `right`
on), and with a comparator monotone along the list, an `ok` result points at
an `Equal` element and an `error` result is an insertion point splitting the
list into a `Less` prefix and a `Greater` suffix. -/
theorem binarySearchGo_spec {α : Type} (f : α → Ordering) (xs : List α)
    (hmono : ∀ i j (hi : i < xs.length) (hj : j < xs.length), i ≤ j →
      ordRank (f xs[i]) ≤ ordRank (f xs[j])) :
    ∀ fuel left right, right - left ≤ fuel → left ≤ right → right ≤ xs.length →
      (∀ k (hk : k < xs.length), k < left → f xs[k] = .lt) →
      (∀ k (hk : k < xs.length), right ≤ k → f xs[k] = .gt) →
      (∀ i, binarySearchGo f xs fuel left right = .ok i →
        ∃ h : i < xs.length, f xs[i] = .eq) ∧
      (∀ i, binarySearchGo f xs fuel left right = .error i → i ≤ xs.length ∧
        (∀ k (hk : k < xs.length), k < i → f xs[k] = .lt) ∧
        (∀ k (hk : k < xs.length), i ≤ k → f xs[k] = .gt)) := by
  intro fuel
  induction fuel with
  | zero =>
    intro left right hfuel hlr hrlen hlt hgt
    simp only [binarySearchGo]
    constructor
    · intro i hi; simp at hi
    · intro i hi
      have : i = left := by simpa using hi.symm
      subst this
      exact ⟨le_trans hlr hrlen, hlt, fun k hk hik => hgt k hk (by omega)⟩
  | succ n ih =>
    intro left right hfuel hlr hrlen hlt hgt
    by_cases hleft : left < right
    · have hmidlt : left + (right - left) / 2 < right := by omega
      have hmidlen : left + (right - left) / 2 < xs.length :=
        lt_of_lt_of_le hmidlt hrlen
      have hx : xs[left + (right - left) / 2]? =
          some xs[left + (right - left) / 2] := List.getElem?_eq_getElem hmidlen
      rw [binarySearchGo, if_pos hleft]
      dsimp only
      simp only [hx]
      rcases hfx : f xs[left + (right - left) / 2] with _ | _ | _ <;> simp only [hfx]
      · exact ih (left + (right - left) / 2 + 1) right (by omega) (by omega) hrlen
          (fun k hk hkm => by
            by_cases hkl : k < left
            · exact hlt k hk hkl
            · refine ordRank_eq_zero ?_
              have := hmono k (left + (right - left) / 2) hk hmidlen (by omega)
              rw [hfx] at this
              simpa [ordRank] using this)
          hgt
      · constructor
        · intro i hi
          have : left + (right - left) / 2 = i := by simpa using hi
          subst this
          exact ⟨hmidlen, hfx⟩
        · intro i hi; simp at hi
      · exact ih left (left + (right - left) / 2) (by omega) (by omega)
          (le_of_lt hmidlen)
          hlt
          (fun k hk hkm => by
            by_cases hkr : right ≤ k
            · exact hgt k hk hkr
            · refine ordRank_eq_two ?_
              have := hmono (left + (right - left) / 2) k hmidlen hk (by omega)
              rw [hfx] at this
              simpa [ordRank] using this)
    · rw [binarySearchGo, if_neg hleft]
      constructor
      · intro i hi; simp at hi
      · intro i hi
        have : i = left := by simpa using hi.symm
        subst this
        exact ⟨le_trans hlr hrlen, hlt, fun k hk hik => hgt k hk (by omega)⟩

/-- When the comparator answers `Greater` on every element (as it does for a
NaN query, where `partial_cmp` is always `None`), the loop always narrows to
the left and ends at insertion point `left`. -/
theorem binarySearchGo_const_gt {α : Type} (f : α → Ordering) (xs : List α)
    (hf : ∀ x, f x = .gt) :
    ∀ fuel left right, right - left ≤ fuel →
      binarySearchGo f xs fuel left right = .error left := by
  intro fuel
  induction fuel with
  | zero =>
    intro left right hfuel
    simp only [binarySearchGo]
  | succ n ih =>
    intro left right hfuel
    by_cases hleft : left < right
    · rw [binarySearchGo, if_pos hleft]
      dsimp only
      rcases hx : xs[left + (right - left) / 2]? with _ | x
      · simp only [hx]
      · simp only [hx, hf x]
        exact ih left (left + (right - left) / 2) (by omega)
    · rw [binarySearchGo, if_neg hleft]

/-- Ranks are bounded by 2. -/
theorem ordRank_le_two (o : Ordering) : ordRank o ≤ 2 := by
  cases o <;> simp [ordRank]

/-- The comparator answers `Less` exactly when the element's threshold is
strictly below the query. -/
theorem switchCmp_eq_lt_iff {T : Type} {t : Time} {p : Time × T} :
    switchCmp t p = .lt ↔ p.1.tlt t := by
  unfold switchCmp Time.tlt
  rcases h : Time.pcmp p.1 t with _ | o
  · simp
  · cases o <;> simp

/-- The comparator answers `Equal` exactly when the element's threshold is the
(non-NaN) query itself. -/
theorem switchCmp_eq_eq_iff {T : Type} {t : Time} {p : Time × T} :
    switchCmp t p = .eq ↔ (p.1.isNan = false ∧ p.1 = t) := by
  unfold switchCmp
  rw [← Time.pcmp_eq_iff]
  rcases h : Time.pcmp p.1 t with _ | o
  · simp
  · cases o <;> simp

/-- With a non-NaN query and a non-NaN threshold, the comparator answers
`Greater` exactly when the query is strictly below the threshold. -/
theorem switchCmp_eq_gt_iff {T : Type} {t : Time} {p : Time × T}
    (ht : t.isNan = false) (hp : p.1.isNan = false) :
    switchCmp t p = .gt ↔ t.tlt p.1 := by
  unfold switchCmp Time.tlt
  rw [Time.pcmp_lt_iff_gt]
  rcases Time.pcmp_isSome hp ht with ⟨o, h⟩
  rw [h]
  cases o <;> simp

/-- Along a strictly sorted NaN-free list, the evaluation comparator for a
non-NaN query is monotone in the `Ordering` rank. -/
theorem switchCmp_mono {T : Type} (t : Time) (ht : t.isNan = false)
    (xs : List (Time × T)) (hsorted : xs.Pairwise (fun p q => p.1.tlt q.1)) :
    ∀ i j (hi : i < xs.length) (hj : j < xs.length), i ≤ j →
      ordRank (switchCmp t xs[i]) ≤ ordRank (switchCmp t xs[j]) := by
  intro i j hi hj hij
  rcases eq_or_lt_of_le hij with h | h
  · subst h; exact le_refl _
  · have hlt : xs[i].1.tlt xs[j].1 :=
      List.pairwise_iff_getElem.mp hsorted i j hi hj h
    rcases hj' : switchCmp t xs[j] with _ | _ | _
    · have : xs[j].1.tlt t := switchCmp_eq_lt_iff.mp hj'
      have : xs[i].1.tlt t := Time.tlt_trans hlt this
      rw [switchCmp_eq_lt_iff.mpr this]
    · obtain ⟨hjn, hjt⟩ := switchCmp_eq_eq_iff.mp hj'
      have : xs[i].1.tlt t := hjt ▸ hlt
      rw [switchCmp_eq_lt_iff.mpr this]
      simp [ordRank]
    · exact le_trans (ordRank_le_two _) (by simp [ordRank])

/-- Contract of `Switch::search` on a switch satisfying the invariant, for a
non-NaN query: an `ok` result points at the exact matching threshold, an
`error` result is the insertion point splitting thresholds into those strictly
below the query and those strictly above it. -/
theorem Switch.search_spec {T O : Type} [TimeFn T O] (sw : Switch T) (t : Time)
    (hinv : SwitchInv sw) (ht : t.isNan = false) :
    (∀ i, sw.search t = .ok i →
      ∃ h : i < sw.switching_steps.length, (sw.switching_steps[i]).1 = t) ∧
    (∀ i, sw.search t = .error i → i ≤ sw.switching_steps.length ∧
      (∀ k (hk : k < sw.switching_steps.length), k < i →
        (sw.switching_steps[k]).1.tlt t) ∧
      (∀ k (hk : k < sw.switching_steps.length), i ≤ k →
        t.tlt (sw.switching_steps[k]).1)) := by
  obtain ⟨hsorted, hnonan⟩ := hinv
  have hspec := binarySearchGo_spec (switchCmp t) sw.switching_steps
    (switchCmp_mono t ht sw.switching_steps hsorted)
    sw.switching_steps.length 0 sw.switching_steps.length
    (by omega) (by omega) (le_refl _)
    (fun k hk hk0 => absurd hk0 (Nat.not_lt_zero k))
    (fun k hk hklen => absurd hk (by omega))
  constructor
  · intro i hi
    obtain ⟨h, heq⟩ := hspec.1 i hi
    exact ⟨h, (switchCmp_eq_eq_iff.mp heq).2⟩
  · intro i hi
    obtain ⟨hlen, hlt, hgt⟩ := hspec.2 i hi
    refine ⟨hlen, fun k hk hki => switchCmp_eq_lt_iff.mp (hlt k hk hki),
      fun k hk hik => ?_⟩
    exact (switchCmp_eq_gt_iff ht
      (hnonan _ (List.getElem_mem hk))).mp (hgt k hk hik)

/-- Inserting an element at a position that splits a pairwise-related list
into a compatible prefix and suffix preserves pairwise-relatedness. -/
theorem pairwise_insertIdx {α : Type} {R : α → α → Prop} {xs : List α} {i : ℕ}
    {x : α} (hi : i ≤ xs.length) (hpw : xs.Pairwise R)
    (hbefore : ∀ k (hk : k < xs.length), k < i → R xs[k] x)
    (hafter : ∀ k (hk : k < xs.length), i ≤ k → R x xs[k]) :
    (xs.insertIdx i x).Pairwise R := by
  rw [List.pairwise_iff_getElem] at hpw ⊢
  have hlen : (xs.insertIdx i x).length = xs.length + 1 :=
    List.length_insertIdx i xs hi
  intro a b ha hb hab
  rcases lt_trichotomy a i with hai | hai | hai
  · have hea : (xs.insertIdx i x)[a] = xs[a] :=
      List.getElem_insertIdx_of_lt xs x i a hai (by omega)
    rcases lt_trichotomy b i with hbi | hbi | hbi
    · have heb : (xs.insertIdx i x)[b] = xs[b] :=
        List.getElem_insertIdx_of_lt xs x i b hbi (by omega)
      rw [hea, heb]
      exact hpw a b (by omega) (by omega) hab
    · subst hbi
      have heb : (xs.insertIdx b x)[b] = x := List.getElem_insertIdx_self xs x b hi
      rw [hea, heb]
      exact hbefore a (by omega) hai
    · obtain ⟨m, hm⟩ : ∃ m, b = i + m + 1 := ⟨b - i - 1, by omega⟩
      subst hm
      have heb : (xs.insertIdx i x)[i + m + 1] = xs[i + m] :=
        List.getElem_insertIdx_add_succ xs x i m (by omega)
      rw [hea, heb]
      exact hpw a (i + m) (by omega) (by omega) (by omega)
  · subst hai
    have hea : (xs.insertIdx a x)[a] = x := List.getElem_insertIdx_self xs x a hi
    rcases lt_trichotomy b a with hbi | hbi | hbi
    · omega
    · omega
    · obtain ⟨m, hm⟩ : ∃ m, b = a + m + 1 := ⟨b - a - 1, by omega⟩
      subst hm
      have heb : (xs.insertIdx a x)[a + m + 1] = xs[a + m] :=
        List.getElem_insertIdx_add_succ xs x a m (by omega)
      rw [hea, heb]
      exact hafter (a + m) (by omega) (by omega)
  · obtain ⟨ma, hma⟩ : ∃ m, a = i + m + 1 := ⟨a - i - 1, by omega⟩
    subst hma
    have hea : (xs.insertIdx i x)[i + ma + 1] = xs[i + ma] :=
      List.getElem_insertIdx_add_succ xs x i ma (by omega)
    obtain ⟨mb, hmb⟩ : ∃ m, b = i + m + 1 := ⟨b - i - 1, by omega⟩
    subst hmb
    have heb : (xs.insertIdx i x)[i + mb + 1] = xs[i + mb] :=
      List.getElem_insertIdx_add_succ xs x i mb (by omega)
    rw [hea, heb]
    exact hpw (i + ma) (i + mb) (by omega) (by omega) (by omega)

/-- A successful fallible insertion on a switch satisfying the invariant
inserts at the binary-search insertion point and preserves the invariant. -/
theorem Switch.try_step_at_ok_inv {T O : Type} [TimeFn T O] {sw sw' : Switch T}
    {v : Time} {seg : T} (hinv : SwitchInv sw)
    (h : sw.try_step_at v seg = .ok sw') :
    v.isNan = false ∧
    ∃ index, sw.search v = .error index ∧ index ≤ sw.switching_steps.length ∧
      sw'.initial_step = sw.initial_step ∧
      sw'.switching_steps = sw.switching_steps.insertIdx index (v, seg) ∧
      SwitchInv sw' := by
  unfold Switch.try_step_at at h
  rcases hnan : v.isNan with _ | _
  · rw [hnan] at h
    simp only [Bool.false_eq_true, if_false] at h
    rcases hs : sw.search v with index | j
    · rw [hs] at h
      simp only [Except.ok.injEq] at h
      obtain ⟨hlen, hlt, hgt⟩ := (Switch.search_spec sw v hinv hnan).2 index hs
      refine ⟨rfl, index, rfl, hlen, ?_, ?_, ?_⟩
      · rw [← h]
      · rw [← h]
      · rw [← h]
        constructor
        · exact pairwise_insertIdx hlen hinv.1 (fun k hk hki => hlt k hk hki)
            (fun k hk hik => hgt k hk hik)
        · intro p hp
          rcases (List.mem_insertIdx hlen).mp hp with hpv | hpmem
          · rw [hpv]; exact hnan
          · exact hinv.2 p hpmem
    · rw [hs] at h
      simp at h
  · rw [hnan] at h
    simp at h

/-- The search finds an exact match precisely when the query is one of the
stored thresholds (on a switch satisfying the invariant, non-NaN query). -/
theorem Switch.search_ok_iff {T O : Type} [TimeFn T O] (sw : Switch T)
    (t : Time) (hinv : SwitchInv sw) (ht : t.isNan = false) :
    (∃ i, sw.search t = .ok i) ↔ t ∈ sw.switching_steps.map Prod.fst := by
  constructor
  · rintro ⟨i, hi⟩
    obtain ⟨h, heq⟩ := (Switch.search_spec sw t hinv ht).1 i hi
    exact List.mem_map.mpr ⟨sw.switching_steps[i], List.getElem_mem h, heq⟩
  · intro hmem
    obtain ⟨p, hp, hpt⟩ := List.mem_map.mp hmem
    obtain ⟨k, hk, hkp⟩ := List.mem_iff_getElem.mp hp
    rcases hs : sw.search t with i | i
    · obtain ⟨hlen, hlt, hgt⟩ := (Switch.search_spec sw t hinv ht).2 i hs
      rcases lt_or_ge k i with hki | hki
      · have := hlt k hk hki
        rw [hkp, hpt] at this
        exact absurd this Time.tlt_irrefl
      · have := hgt k hk hki
        rw [hkp, hpt] at this
        exact absurd this Time.tlt_irrefl
    · exact ⟨i, rfl⟩

/-- Every reachable switch satisfies the sortedness invariant. -/
theorem Switch.reachable_inv {T O : Type} [TimeFn T O] {sw : Switch T}
    (h : Switch.Reachable (O := O) sw) : SwitchInv sw := by
  induction h with
  | new initial_step => exact ⟨List.Pairwise.nil, by simp [Switch.new]⟩
  | new_with_capacity initial_step capacity =>
    exact ⟨List.Pairwise.nil, by simp [Switch.new_with_capacity]⟩
  | step hreach hok ih =>
    obtain ⟨-, index, -, -, -, -, hinv'⟩ := Switch.try_step_at_ok_inv ih hok
    exact hinv'

/-- Strictly smaller values are distinct. -/
theorem Time.tlt_ne {x y : Time} (h : x.tlt y) : x ≠ y := by
  intro he
  subst he
  exact Time.tlt_irrefl h

/-- The comparison is undefined exactly when one side is NaN. -/
theorem Time.pcmp_eq_none_iff {x y : Time} :
    Time.pcmp x y = none ↔ (x.isNan = true ∨ y.isNan = true) := by
  cases x <;> cases y <;> simp [Time.pcmp, Time.isNan]

/-- The Rust boolean `t >= th` coincides with the propositional `th ≤ t`. -/
theorem Time.fge_iff_tle {t th : Time} : Time.fge t th = true ↔ th.tle t := by
  unfold Time.fge Time.tle
  rcases h : Time.pcmp t th with _ | o
  · have hn := Time.pcmp_eq_none_iff.mp h
    simp only [h]
    constructor
    · intro hfalse; cases hfalse
    · rintro (hc | hc)
      · have := Time.pcmp_eq_none_iff.mpr hn.symm
        rw [this] at hc; cases hc
      · have := Time.pcmp_eq_none_iff.mpr hn.symm
        rw [this] at hc; cases hc
  · cases o
    · simp only [h]
      constructor
      · intro hfalse; cases hfalse
      · rintro (hc | hc)
        · have := Time.pcmp_lt_iff_gt.mp hc
          rw [h] at this; cases this
        · obtain ⟨hnn, he⟩ := Time.pcmp_eq_iff.mp hc
          subst he
          rw [Time.pcmp_self hnn] at h
          simp at h
    · simp only [h]
      constructor
      · intro _
        right
        obtain ⟨hnn, he⟩ := Time.pcmp_eq_iff.mp h
        subst he
        exact Time.pcmp_eq_iff.mpr ⟨hnn, rfl⟩
      · intro _; trivial
    · simp only [h]
      constructor
      · intro _
        left
        exact Time.pcmp_lt_iff_gt.mpr h
      · intro _; trivial

/-- Multiplying by the finite value 1 on the right is the identity (the `f32`
fact `x * 1.0 == x`, NaN included, in the embedded model). -/
theorem Time.mul_one_right (t : Time) : Time.mul t (Time.fin 1) = t := by
  cases t <;> simp [Time.mul]

/-- Reduction of `Switch` evaluation on an exact binary-search match. -/
theorem Switch.evalAt_ok {T O : Type} [TimeFn T O] {sw : Switch T} {t : Time}
    {i : ℕ} (hs : sw.search t = .ok i) (hi : i < sw.switching_steps.length) :
    Switch.evalAt sw t = atTime (sw.switching_steps[i]).2 t := by
  unfold Switch.evalAt
  simp only [hs, List.getElem?_eq_getElem hi]

/-- Reduction of `Switch` evaluation on insertion point 0. -/
theorem Switch.evalAt_err_zero {T O : Type} [TimeFn T O] {sw : Switch T}
    {t : Time} (hs : sw.search t = .error 0) :
    Switch.evalAt sw t = atTime sw.initial_step t := by
  unfold Switch.evalAt
  simp only [hs]

/-- Reduction of `Switch` evaluation on a positive insertion point. -/
theorem Switch.evalAt_err_succ {T O : Type} [TimeFn T O] {sw : Switch T}
    {t : Time} {i : ℕ} (hs : sw.search t = .error (i + 1))
    (hi : i < sw.switching_steps.length) :
    Switch.evalAt sw t = atTime (sw.switching_steps[i]).2 t := by
  unfold Switch.evalAt
  simp only [hs, List.getElem?_eq_getElem hi]

/-- C6: `Player::new` fails with the distinct no-channels error exactly when
the channel collection is empty (constructing no Player), and otherwise
succeeds, storing the channels in order and the sample rate 48 000. -/
theorem player_new_spec {T O B : Type} [TimeFn T O] (channels : List T)
    (backend : B) :
    (Player.new (O := O) channels backend = .error {} ↔ channels = []) ∧
    (channels ≠ [] →
      Player.new (O := O) channels backend =
        .ok { channels := channels, backend := backend, sample_rate := 48000 }) := by
  unfold Player.new
  rcases he : channels.isEmpty with _ | _
  · have hne : channels ≠ [] := by
      intro h
      subst h
      simp [List.isEmpty] at he
    rw [if_neg (by simp [he])]
    refine ⟨⟨fun h => by simp at h, fun h => absurd h hne⟩, fun _ => rfl⟩
  · have hnil : channels = [] := List.isEmpty_iff.mp he
    subst hnil
    rw [if_pos rfl]
    exact ⟨⟨fun _ => rfl, fun _ => rfl⟩, fun h => absurd rfl h⟩

/-- C6 witness: constructing from the empty channel list fails with the
no-channels error; constructing from one channel succeeds with rate 48 000. -/
theorem player_new_spec_witness :
    Player.new (O := Time) ([] : List Seconds) (7 : ℕ) = .error {} ∧
    Player.new (O := Time) [(⟨⟩ : Seconds)] (7 : ℕ) =
      .ok { channels := [⟨⟩], backend := 7, sample_rate := 48000 } :=
  ⟨(player_new_spec (O := Time) ([] : List Seconds) (7 : ℕ)).1.mpr rfl,
   (player_new_spec (O := Time) [(⟨⟩ : Seconds)] (7 : ℕ)).2 (by simp)⟩

/-- C7: for all time functions `f` and `g` (with `g` producing `Time`), every
time `t` and speed `s`: `f.compose(g).at(t) = f.at(g.at(t))`,
`f.with_speed(s).at(t) = f.at(t * s)`, and `f.with_speed(1.0).at(t) = f.at(t)`. -/
theorem compose_with_speed_algebra {F G O : Type} [TimeFn F O] [TimeFn G Time]
    (f : F) (g : G) (t s : Time) :
    atTime (Compose.mk f g) t = atTime f (atTime g t) ∧
    atTime (WithSpeed.mk f s) t = atTime f (Time.mul t s) ∧
    atTime (WithSpeed.mk f (Time.fin 1)) t = atTime f t := by
  refine ⟨rfl, rfl, ?_⟩
  show atTime f (Time.mul t (Time.fin 1)) = atTime f t
  rw [Time.mul_one_right]

/-- C8: cloning a `SampleSource` zeroes the intra-second sample counter and
copies every other field (channels, sample rate, channel cursor, and the
window bounds, including whole seconds already carried into `start`). -/
theorem sample_source_clone_spec {T : Type} (s : SampleSource T) :
    s.clone.second_sample = 0 ∧ s.clone.channels = s.channels ∧
    s.clone.curr_channel = s.curr_channel ∧
    s.clone.sample_rate = s.sample_rate ∧
    s.clone.start = s.start ∧ s.clone.endTime = s.endTime :=
  ⟨rfl, rfl, rfl, rfl, rfl, rfl⟩

/-- C9: `StepAt` evaluates the `after` function exactly when the queried time
is at or above the threshold (in particular at the threshold instant itself),
and the `before` function otherwise. -/
theorem step_at_spec {T U O : Type} [TimeFn T O] [TimeFn U O]
    (before : T) (after : U) (th t : Time) :
    (th.tle t → atTime (StepAt.mk before th after) t = atTime after t) ∧
    (¬ th.tle t → atTime (StepAt.mk before th after) t = atTime before t) ∧
    (th.isNan = false → atTime (StepAt.mk before th after) th = atTime after th) := by
  refine ⟨?_, ?_, ?_⟩
  · intro h
    show (if Time.fge t th = true then atTime after t else atTime before t) = _
    rw [if_pos (Time.fge_iff_tle.mpr h)]
  · intro h
    show (if Time.fge t th = true then atTime after t else atTime before t) = _
    rw [if_neg (fun hb => h (Time.fge_iff_tle.mp hb))]
  · intro h
    show (if Time.fge th th = true then atTime after th else atTime before th) = _
    rw [if_pos (Time.fge_iff_tle.mpr (Or.inr (Time.pcmp_self h)))]

/-- C9 witness: with the threshold at 1 second, the time 2 is at or above the
threshold and the `after` constant 5 is returned. -/
theorem step_at_spec_witness :
    Time.tle (Time.fin 1) (Time.fin 2) ∧
    atTime (StepAt.mk (Const.mk (0 : ℕ)) (Time.fin 1) (Const.mk 5))
      (Time.fin 2) = 5 :=
  ⟨by decide,
   (step_at_spec (Const.mk 0) (Const.mk 5) (Time.fin 1) (Time.fin 2)).1 (by decide)⟩

/-- C10: for a NaN query time the comparator `unwrap_or(Greater)` always
answers `Greater`, so `Switch::search` lands at insertion point 0 and
evaluation returns the initial segment's value, whatever the stored steps. -/
theorem switch_nan_query {T O : Type} [TimeFn T O] (sw : Switch T) (t : Time)
    (ht : t.isNan = true) :
    sw.search t = .error 0 ∧ atTime sw t = atTime sw.initial_step t := by
  have ht' : t = Time.nan := by cases t <;> simp_all [Time.isNan]
  subst ht'
  have hsearch : sw.search Time.nan = .error 0 :=
    binarySearchGo_const_gt (switchCmp Time.nan) sw.switching_steps
      (fun p => by simp [switchCmp, Time.pcmp_nan_right])
      sw.switching_steps.length 0 sw.switching_steps.length (by omega)
  exact ⟨hsearch, Switch.evalAt_err_zero hsearch⟩

/-- C10 witness: on the two-step example switch, a NaN query selects the
initial constant 0, not any stored segment. -/
theorem switch_nan_query_witness :
    Switch.search exSwitch Time.nan = .error 0 ∧
    atTime exSwitch Time.nan = (0 : ℕ) :=
  ⟨(switch_nan_query exSwitch Time.nan rfl).1,
   by rw [(switch_nan_query exSwitch Time.nan rfl).2]; rfl⟩

/-- C3: on a switch built through the insertion API, for a non-NaN time `t`:
an exact threshold match at sorted index `i` selects segment `i`; otherwise
the segment of the greatest threshold strictly below `t` (the greatest not
exceeding `t`, as no exact match exists) is selected; and when `t` is below
every threshold the initial segment is selected. -/
theorem switch_at_most_recent {T O : Type} [TimeFn T O] (sw : Switch T)
    (t : Time) (hreach : Switch.Reachable (O := O) sw) (ht : t.isNan = false) :
    (∀ i (hi : i < sw.switching_steps.length), (sw.switching_steps[i]).1 = t →
      atTime sw t = atTime (sw.switching_steps[i]).2 t) ∧
    (∀ i (hi : i < sw.switching_steps.length), (sw.switching_steps[i]).1.tlt t →
      (∀ j (hj : j < sw.switching_steps.length), i < j →
        t.tlt (sw.switching_steps[j]).1) →
      atTime sw t = atTime (sw.switching_steps[i]).2 t) ∧
    ((∀ j (hj : j < sw.switching_steps.length), t.tlt (sw.switching_steps[j]).1) →
      atTime sw t = atTime sw.initial_step t) := by
  have hinv := Switch.reachable_inv hreach
  have hspec := Switch.search_spec sw t hinv ht
  rcases hs : sw.search t with i | i
  · obtain ⟨hlen, hlt, hgt⟩ := hspec.2 i hs
    refine ⟨?_, ?_, ?_⟩
    · intro i' hi' heq
      rcases Nat.lt_or_ge i' i with hii | hii
      · have h1 := hlt i' hi' hii
        rw [heq] at h1
        exact (Time.tlt_irrefl h1).elim
      · have h1 := hgt i' hi' hii
        rw [heq] at h1
        exact (Time.tlt_irrefl h1).elim
    · intro i' hi' hbelow habove
      have hii : i = i' + 1 := by
        rcases Nat.lt_or_ge i' i with h1 | h1
        · by_contra hne
          have h2 : i' + 1 < i := by omega
          have h3 : i' + 1 < sw.switching_steps.length := by omega
          have h4 := hlt (i' + 1) h3 h2
          have h5 := habove (i' + 1) h3 (by omega)
          exact absurd (Time.tlt_trans h4 h5) Time.tlt_irrefl
        · have h2 := hgt i' hi' h1
          exact (Time.tlt_irrefl (Time.tlt_trans hbelow h2)).elim
      subst hii
      exact Switch.evalAt_err_succ hs hi'
    · intro hall
      have hzero : i = 0 := by
        by_contra hne
        have h0 : 0 < i := Nat.pos_of_ne_zero hne
        have h1 : 0 < sw.switching_steps.length := by omega
        have h2 := hlt 0 h1 h0
        exact absurd (Time.tlt_trans h2 (hall 0 h1)) Time.tlt_irrefl
      subst hzero
      exact Switch.evalAt_err_zero hs
  · obtain ⟨hi, heq⟩ := hspec.1 i hs
    refine ⟨?_, ?_, ?_⟩
    · intro i' hi' heq'
      have hii : i = i' := by
        rcases lt_trichotomy i i' with h1 | h1 | h1
        · have h2 := List.pairwise_iff_getElem.mp hinv.1 i i' hi hi' h1
          rw [heq, heq'] at h2
          exact (Time.tlt_irrefl h2).elim
        · exact h1
        · have h2 := List.pairwise_iff_getElem.mp hinv.1 i' i hi' hi h1
          rw [heq, heq'] at h2
          exact (Time.tlt_irrefl h2).elim
      subst hii
      exact Switch.evalAt_ok hs hi
    · intro i' hi' hbelow habove
      rcases Nat.lt_or_ge i' i with h1 | h1
      · have h2 := habove i hi h1
        rw [heq] at h2
        exact (Time.tlt_irrefl h2).elim
      · rcases Nat.eq_or_lt_of_le h1 with h2 | h2
        · subst h2
          rw [heq] at hbelow
          exact (Time.tlt_irrefl hbelow).elim
        · have hp := List.pairwise_iff_getElem.mp hinv.1 i i' hi hi' h2
          rw [heq] at hp
          exact (Time.tlt_irrefl (Time.tlt_trans hp hbelow)).elim
    · intro hall
      have h1 := hall i hi
      rw [heq] at h1
      exact (Time.tlt_irrefl h1).elim

/-- C3 witness: on the spec's example (thresholds 1 and 2, segments 0/10/20,
built by two successful insertions), evaluating at 3 seconds — at or above
threshold 2 — selects the last segment, giving 20. -/
theorem switch_at_most_recent_witness : atTime exSwitch (Time.fin 3) = (20 : ℕ) := by
  have h1 : (Switch.new (O := ℕ) (⟨0⟩ : Const ℕ)).try_step_at (Time.fin 1) ⟨10⟩
      = .ok { initial_step := ⟨0⟩, switching_steps := [(Time.fin 1, ⟨10⟩)] } := rfl
  have h2 : ({ initial_step := ⟨0⟩, switching_steps := [(Time.fin 1, ⟨10⟩)] } :
      Switch (Const ℕ)).try_step_at (Time.fin 2) ⟨20⟩ = .ok exSwitch := rfl
  have hreach : Switch.Reachable (O := ℕ) exSwitch :=
    Switch.Reachable.step (Switch.Reachable.step (Switch.Reachable.new _) h1) h2
  exact (switch_at_most_recent exSwitch (Time.fin 3) hreach rfl).2.1
    1 (by decide) (by decide)
    (fun j hj hij => by
      exfalso
      simp only [exSwitch, List.length_cons, List.length_nil] at hj
      omega)

/-- C4: on a switch built through the insertion API, `try_step_at` returns
the NaN error exactly for NaN thresholds; the duplicate error, carrying the
offending value, exactly for non-NaN thresholds already stored; on every
error path the `switching_steps` sequence goes through no intermediate state
(no partial mutation); otherwise the insertion succeeds. -/
theorem try_step_at_spec {T O : Type} [TimeFn T O] (sw : Switch T) (v : Time)
    (seg : T) (hreach : Switch.Reachable (O := O) sw) :
    (sw.try_step_at v seg = .error .nan ↔ v.isNan = true) ∧
    (∀ w, sw.try_step_at v seg = .error (.duplicated w) ↔
      (v.isNan = false ∧ w = v ∧ v ∈ sw.switching_steps.map Prod.fst)) ∧
    (∀ e, sw.try_step_at v seg = .error e →
      sw.try_step_at_states v seg = [sw.switching_steps]) ∧
    ((v.isNan = false ∧ v ∉ sw.switching_steps.map Prod.fst) →
      ∃ sw', sw.try_step_at v seg = .ok sw') := by
  have hinv := Switch.reachable_inv hreach
  unfold Switch.try_step_at Switch.try_step_at_states
  by_cases hnan : v.isNan = true
  · rw [if_pos hnan, if_pos hnan]
    refine ⟨⟨fun _ => hnan, fun _ => rfl⟩, ?_, fun e _ => rfl, ?_⟩
    · intro w
      constructor
      · intro h; simp at h
      · rintro ⟨hf, -, -⟩
        simp [hf] at hnan
    · rintro ⟨hf, -⟩
      simp [hf] at hnan
  · have hnan' : v.isNan = false := by simpa using hnan
    rw [if_neg hnan, if_neg hnan]
    rcases hs : sw.search v with i | i
    · simp only [hs]
      refine ⟨?_, ?_, fun e h => absurd h (by simp), fun _ => ⟨_, rfl⟩⟩
      · constructor
        · intro h; simp at h
        · intro h; exact absurd h hnan
      · intro w
        constructor
        · intro h; simp at h
        · rintro ⟨-, -, hmem⟩
          obtain ⟨j, hj⟩ := (Switch.search_ok_iff sw v hinv hnan').mpr hmem
          rw [hs] at hj
          simp at hj
    · simp only [hs]
      have hmem := (Switch.search_ok_iff sw v hinv hnan').mp ⟨i, hs⟩
      refine ⟨?_, ?_, fun e h => trivial, ?_⟩
      · constructor
        · intro h; simp at h
        · intro h; exact absurd h hnan
      · intro w
        constructor
        · intro h
          have hvw : v = w := by simpa using h
          exact ⟨hnan', hvw.symm, hmem⟩
        · rintro ⟨-, hw, -⟩
          subst hw
          rfl
      · rintro ⟨-, hnmem⟩
        exact absurd hmem hnmem

/-- C4 witness: inserting the already-stored threshold 1 into the example
switch fails with the duplicate error carrying 1, and the step sequence goes
through no intermediate state. -/
theorem try_step_at_spec_witness :
    Switch.try_step_at exSwitch (Time.fin 1) (Const.mk 99)
      = .error (.duplicated (Time.fin 1)) ∧
    Switch.try_step_at_states exSwitch (Time.fin 1) (Const.mk 99)
      = [exSwitch.switching_steps] := by
  have h1 : (Switch.new (O := ℕ) (⟨0⟩ : Const ℕ)).try_step_at (Time.fin 1) ⟨10⟩
      = .ok { initial_step := ⟨0⟩, switching_steps := [(Time.fin 1, ⟨10⟩)] } := rfl
  have h2 : ({ initial_step := ⟨0⟩, switching_steps := [(Time.fin 1, ⟨10⟩)] } :
      Switch (Const ℕ)).try_step_at (Time.fin 2) ⟨20⟩ = .ok exSwitch := rfl
  have hreach : Switch.Reachable (O := ℕ) exSwitch :=
    Switch.Reachable.step (Switch.Reachable.step (Switch.Reachable.new _) h1) h2
  have hspec := try_step_at_spec exSwitch (Time.fin 1) (Const.mk 99) hreach
  have herr := (hspec.2.1 (Time.fin 1)).mpr ⟨rfl, rfl, by decide⟩
  exact ⟨herr, hspec.2.2.1 _ herr⟩

/-- C5: every switch reachable from construction through successful
insertions has strictly sorted thresholds with no duplicates and no NaN, and
each successful insertion places the new pair at the binary-search insertion
point while preserving the invariant. -/
theorem switch_reachable_invariant {T O : Type} [TimeFn T O] {sw : Switch T}
    (hreach : Switch.Reachable (O := O) sw) :
    (sw.switching_steps.map Prod.fst).Pairwise Time.tlt ∧
    (sw.switching_steps.map Prod.fst).Nodup ∧
    (∀ x ∈ sw.switching_steps.map Prod.fst, x.isNan = false) ∧
    (∀ v seg sw', sw.try_step_at v seg = .ok sw' →
      ∃ index, sw.search v = .error index ∧
        index ≤ sw.switching_steps.length ∧
        sw'.switching_steps = sw.switching_steps.insertIdx index (v, seg) ∧
        SwitchInv sw') := by
  have hinv := Switch.reachable_inv hreach
  refine ⟨List.pairwise_map.mpr hinv.1,
    List.Pairwise.imp (fun h => Time.tlt_ne h) (List.pairwise_map.mpr hinv.1),
    ?_, ?_⟩
  · intro x hx
    obtain ⟨p, hp, hpx⟩ := List.mem_map.mp hx
    rw [← hpx]
    exact hinv.2 p hp
  · intro v seg sw' hok
    obtain ⟨hn, index, hsearch, hlen, hinit, hsteps, hinv'⟩ :=
      Switch.try_step_at_ok_inv hinv hok
    exact ⟨index, hsearch, hlen, hsteps, hinv'⟩

/-- C5 witness: the example switch is reachable by two successful insertions
and its threshold sequence [1, 2] is duplicate-free. -/
theorem switch_reachable_invariant_witness :
    (exSwitch.switching_steps.map Prod.fst).Nodup := by
  have h1 : (Switch.new (O := ℕ) (⟨0⟩ : Const ℕ)).try_step_at (Time.fin 1) ⟨10⟩
      = .ok { initial_step := ⟨0⟩, switching_steps := [(Time.fin 1, ⟨10⟩)] } := rfl
  have h2 : ({ initial_step := ⟨0⟩, switching_steps := [(Time.fin 1, ⟨10⟩)] } :
      Switch (Const ℕ)).try_step_at (Time.fin 2) ⟨20⟩ = .ok exSwitch := rfl
  have hreach : Switch.Reachable (O := ℕ) exSwitch :=
    Switch.Reachable.step (Switch.Reachable.step (Switch.Reachable.new _) h1) h2
  exact (switch_reachable_invariant hreach).2.1

/-- C1 (code defect, flagged in spec §9): with one `Seconds` channel, sample
rate 1 and window [0, 1] — N = 1, k = (1-0)*1 = 1, so the claim requires
N*(k+1) = 2 items at times 0 and 1 — the iterator emits the single sample at
time 0 and stops: the end-of-second carry (`player.rs` line 57) zeroes the
`sample_rate` field instead of the intra-second counter, so the next computed
time is `1 + 1/0 = +∞`, which fails the window test. -/
theorem sample_source_count_code_bug :
    SampleSource.takeOut 10 exSource = [Time.fin 0] ∧
    (SampleSource.takeOut 10 exSource).length = 1 ∧
    (∃ s', SampleSource.next exSource = .item (Time.fin 0) s' ∧
      s'.sample_rate = 0 ∧
      SampleSource.next s' = (.exhausted : NextResult Seconds Time)) := by
  have hnext : SampleSource.next exSource = .item (Time.fin 0)
      { channels := [⟨⟩], curr_channel := 0, sample_rate := 0, second_sample := 1,
        start := Time.fin 1, endTime := Time.fin 1 } := by
    norm_num [SampleSource.next, exSource, Time.ofNat, Time.div, Time.add,
      Time.fle, Time.pcmp, TimeFn.atTime]
  have hnext2 : SampleSource.next
      ({ channels := [⟨⟩], curr_channel := 0, sample_rate := 0,
         second_sample := 1, start := Time.fin 1, endTime := Time.fin 1 } :
        SampleSource Seconds) = (.exhausted : NextResult Seconds Time) := by
    norm_num [SampleSource.next, Time.ofNat, Time.div, Time.add, Time.fle,
      Time.pcmp]
  refine ⟨?_, ?_, _, hnext, rfl, hnext2⟩
  · simp [SampleSource.takeOut, hnext, hnext2]
  · simp [SampleSource.takeOut, hnext, hnext2]

/-- C2 (code defect, flagged in spec §9): in the state about to carry (last
channel of the step emitted, counter reaching the rate), the claim requires
the counter reset to 0 with the sample rate unchanged; the code (`player.rs`
line 57) instead zeroes `sample_rate` and leaves the counter at its
incremented value 1 (only `start` is advanced by 1 as prescribed). -/
theorem sample_carry_code_bug :
    ∃ s', SampleSource.next exCarrySource = .item (Time.fin 0) s' ∧
      s'.sample_rate = 0 ∧ s'.second_sample = 1 ∧ s'.start = Time.fin 1 ∧
      s'.curr_channel = 0 ∧ s'.channels = exCarrySource.channels ∧
      s'.endTime = exCarrySource.endTime := by
  have hnext : SampleSource.next exCarrySource = .item (Time.fin 0)
      { channels := [⟨⟩], curr_channel := 0, sample_rate := 0, second_sample := 1,
        start := Time.fin 1, endTime := Time.fin 10 } := by
    norm_num [SampleSource.next, exCarrySource, Time.ofNat, Time.div, Time.add,
      Time.fle, Time.pcmp, TimeFn.atTime]
  exact ⟨_, hnext, rfl, rfl, rfl, rfl, rfl, rfl⟩
